import Mathlib

/-!
Verification of the ANSI-aware styled-text engine of the bleamd markdown
viewer, against its Go source (badges.go / search / hyperlink / viewport
code).  Strings are modelled as lists of bytes (`List Nat`), matching the
byte-indexed Go code.  Loops are translated as fuel-indexed structural
recursions; the fuel passed by each top-level wrapper is large enough that
it never runs out (each iteration of every loop consumes at least one byte
or advances the scan position by at least one).
-/

/-- Byte value of the escape marker ESC (0x1b). -/
def escByte : Nat := 27

/-- True for ASCII digits and the semicolon, the CSI parameter bytes
accepted by the escape-stripping scanner (Go: `(s[j] >= '0' && s[j] <= '9') || s[j] == ';'`). -/
def isCsiParam (b : Nat) : Bool := (48 ≤ b && b ≤ 57) || b == 59

/-- True for ASCII letters A-Z / a-z (Go:
`(bytes[i] >= 'A' && bytes[i] <= 'Z') || (bytes[i] >= 'a' && bytes[i] <= 'z')`). -/
def isAsciiLetter (b : Nat) : Bool := (65 ≤ b && b ≤ 90) || (97 ≤ b && b ≤ 122)

/-- Number of bytes the CSI branch of `stripANSIWithMapping` consumes after
the two bytes ESC `[`: the maximal run of digit/semicolon bytes, plus the
one following byte when the run does not reach end of input
(Go: the `for ... j++` loop followed by `if j < len(s) { j++ }`). -/
def skipCSIStrip (t : List Nat) : Nat :=
  let k := (t.takeWhile isCsiParam).length
  if k < t.length then k + 1 else k

/-- Number of bytes the OSC branch of `stripANSIWithMapping` consumes after
the two bytes ESC `]`: everything up to and including the two-byte
terminator ESC `\` or a single BEL (0x07), or to end of input
(Go: the `for j < len(s)` loop). -/
def skipOSCStrip : List Nat → Nat
  | [] => 0
  | 7 :: _ => 1
  | 27 :: 92 :: _ => 2
  | _ :: t => 1 + skipOSCStrip t

/-- Fueled worker for `stripANSIWithMapping`.  `i` is the raw byte offset of
the head of `l` in the original string; returns (plain bytes, position map).
Mirrors the Go scanning loop byte for byte: an ESC that is the last byte of
the input, or is followed by neither `[` nor `]`, is emitted as a plain byte
(Go guard `i < len(s)-1 && s[i] == '\x1b'` and the inner else-branch). -/
def stripGo : Nat → List Nat → Nat → List Nat × List Nat
  | 0, _, _ => ([], [])
  | _ + 1, [], _ => ([], [])
  | f + 1, b :: t, i =>
    if b = 27 then
      match t with
      | [] => ([27], [i])
      | c :: t2 =>
        if c = 91 then
          let k := skipCSIStrip t2
          stripGo f (t2.drop k) (i + 2 + k)
        else if c = 93 then
          let k := skipOSCStrip t2
          stripGo f (t2.drop k) (i + 2 + k)
        else
          let r := stripGo f (c :: t2) (i + 1)
          (27 :: r.1, i :: r.2)
    else
      let r := stripGo f t (i + 1)
      (b :: r.1, i :: r.2)

/-- `stripANSIWithMapping` starting at raw offset `i`. -/
def stripFrom (s : List Nat) (i : Nat) : List Nat × List Nat :=
  stripGo s.length s i

/-- Go `stripANSIWithMapping`: strips CSI and OSC escape sequences and
returns the plain bytes together with, for each plain byte, the raw offset
it came from. -/
def stripANSIWithMapping (s : List Nat) : List Nat × List Nat :=
  stripFrom s 0

/-- Go `stripANSI`: the plain-text component of `stripANSIWithMapping`. -/
def stripANSI (s : List Nat) : List Nat :=
  (stripANSIWithMapping s).1

/-- True for UTF-8 continuation bytes 0x80-0xBF. -/
def isCont (b : Nat) : Bool := 128 ≤ b && b ≤ 191

/-- Length (1-4) of the valid (shortest-form, non-surrogate) UTF-8 sequence
at the head of the list, or 0 when the head byte does not start a valid
sequence, following the acceptance ranges of the Go `unicode/utf8`
decoder. -/
def utf8SeqLen : List Nat → Nat
  | [] => 0
  | b0 :: t =>
    if b0 < 128 then 1
    else if 194 ≤ b0 && b0 ≤ 223 then
      if isCont (t.getD 0 0) && 1 ≤ t.length then 2 else 0
    else if 224 ≤ b0 && b0 ≤ 239 then
      let lo := if b0 = 224 then 160 else 128
      let hi := if b0 = 237 then 159 else 191
      if (lo ≤ t.getD 0 0 && t.getD 0 0 ≤ hi) && isCont (t.getD 1 0) && 2 ≤ t.length then 3
      else 0
    else if 240 ≤ b0 && b0 ≤ 244 then
      let lo := if b0 = 240 then 144 else 128
      let hi := if b0 = 244 then 143 else 191
      if (lo ≤ t.getD 0 0 && t.getD 0 0 ≤ hi) && isCont (t.getD 1 0) && isCont (t.getD 2 0)
          && 3 ≤ t.length then 4
      else 0
    else 0

/-- Splits off the first UTF-8 encoded codepoint when the list starts with a
valid UTF-8 sequence, as accepted by the Go `unicode/utf8` decoder used by
`[]rune(string)` conversion. -/
def utf8Split (l : List Nat) : Option (List Nat × List Nat) :=
  let k := utf8SeqLen l
  if k = 0 then none else some (l.take k, l.drop k)

/-- Fueled codepoint counter: the length of Go `[]rune(string(l))`, where
each valid UTF-8 sequence counts as one codepoint and each byte of an
invalid sequence counts as one replacement codepoint. -/
def utf8CountGo : Nat → List Nat → Nat
  | 0, _ => 0
  | _ + 1, [] => 0
  | f + 1, b :: t =>
    match utf8Split (b :: t) with
    | some (_, r) => 1 + utf8CountGo f r
    | none => 1 + utf8CountGo f t

/-- Number of codepoints of a byte list under Go rune decoding. -/
def utf8Count (l : List Nat) : Nat := utf8CountGo l.length l

/-- C1 helper: both components of `stripGo` always have the same length —
each emitted plain byte is paired with exactly one map entry. -/
theorem stripGo_lengths : ∀ f l i, (stripGo f l i).1.length = (stripGo f l i).2.length := by
  intro f
  induction f with
  | zero => intro l i; simp [stripGo]
  | succ f ih =>
    intro l i
    match l with
    | [] => simp [stripGo]
    | b :: t =>
      by_cases hb : b = 27
      · subst hb
        match t with
        | [] => simp [stripGo]
        | c :: t2 =>
          by_cases hc : c = 91
          · subst hc; simp [stripGo, ih]
          · by_cases hc2 : c = 93
            · subst hc2; simp [stripGo, hc, ih]
            · simp [stripGo, hc, hc2, ih]
      · simp [stripGo, hb, ih]

/-- Unfolding: empty input. -/
theorem stripGo_nil (f i : Nat) : stripGo f [] i = ([], []) := by
  cases f <;> simp [stripGo]

/-- Unfolding: CSI branch. -/
theorem stripGo_csi_step (f : Nat) (t : List Nat) (i : Nat) :
    stripGo (f + 1) (27 :: 91 :: t) i =
      stripGo f (t.drop (skipCSIStrip t)) (i + 2 + skipCSIStrip t) := by
  simp [stripGo]

/-- Unfolding: OSC branch. -/
theorem stripGo_osc_step (f : Nat) (t : List Nat) (i : Nat) :
    stripGo (f + 1) (27 :: 93 :: t) i =
      stripGo f (t.drop (skipOSCStrip t)) (i + 2 + skipOSCStrip t) := by
  simp [stripGo]

/-- Unfolding: ESC as the final byte is emitted as a plain byte. -/
theorem stripGo_esc_last (f i : Nat) : stripGo (f + 1) [27] i = ([27], [i]) := by
  simp [stripGo]

/-- Unfolding: ESC followed by neither bracket is emitted as a plain byte. -/
theorem stripGo_esc_other (f : Nat) (c : Nat) (t2 : List Nat) (i : Nat)
    (h : c ≠ 91) (h2 : c ≠ 93) :
    stripGo (f + 1) (27 :: c :: t2) i =
      ((stripGo f (c :: t2) (i + 1)).1.cons 27, (stripGo f (c :: t2) (i + 1)).2.cons i) := by
  simp [stripGo, h, h2]

/-- Unfolding: plain byte. -/
theorem stripGo_plain (f : Nat) (b : Nat) (t : List Nat) (i : Nat) (h : b ≠ 27) :
    stripGo (f + 1) (b :: t) i =
      ((stripGo f t (i + 1)).1.cons b, (stripGo f t (i + 1)).2.cons i) := by
  simp [stripGo, h]

/-- The result of `stripGo` does not depend on the fuel, as long as the fuel
is at least the number of remaining bytes (each loop iteration consumes at
least one byte). -/
theorem stripGo_congr : ∀ n l i f₁ f₂, l.length ≤ n → l.length ≤ f₁ → l.length ≤ f₂ →
    stripGo f₁ l i = stripGo f₂ l i := by
  intro n
  induction n with
  | zero =>
    intro l i f₁ f₂ h _ _
    have hl : l = [] := List.eq_nil_of_length_eq_zero (Nat.le_zero.mp h)
    subst hl
    simp [stripGo_nil]
  | succ n ih =>
    intro l i f₁ f₂ hn h1 h2
    match l with
    | [] => simp [stripGo_nil]
    | b :: t =>
      obtain ⟨a, rfl⟩ : ∃ a, f₁ = a + 1 := ⟨f₁ - 1, by simp at h1; omega⟩
      obtain ⟨c', rfl⟩ : ∃ c', f₂ = c' + 1 := ⟨f₂ - 1, by simp at h2; omega⟩
      simp only [List.length_cons] at hn h1 h2
      by_cases hb : b = 27
      · subst hb
        match t with
        | [] => simp [stripGo_esc_last]
        | c :: t2 =>
          simp only [List.length_cons] at hn h1 h2
          by_cases hc : c = 91
          · subst hc
            rw [stripGo_csi_step, stripGo_csi_step]
            exact ih (t2.drop (skipCSIStrip t2)) (i + 2 + skipCSIStrip t2) a c'
              (by simp; omega) (by simp; omega) (by simp; omega)
          · by_cases hc2 : c = 93
            · subst hc2
              rw [stripGo_osc_step, stripGo_osc_step]
              exact ih (t2.drop (skipOSCStrip t2)) (i + 2 + skipOSCStrip t2) a c'
                (by simp; omega) (by simp; omega) (by simp; omega)
            · rw [stripGo_esc_other _ _ _ _ hc hc2, stripGo_esc_other _ _ _ _ hc hc2,
                ih (c :: t2) (i + 1) a c' (by simp; omega) (by simp; omega) (by simp; omega)]
      · rw [stripGo_plain _ _ _ _ hb, stripGo_plain _ _ _ _ hb,
          ih t (i + 1) a c' (by omega) (by omega) (by omega)]

/-- A takeWhile run bounded by a failing element. -/
theorem takeWhile_middle (p : Nat → Bool) :
    ∀ (xs : List Nat) (y : Nat) (ys : List Nat), (∀ x ∈ xs, p x = true) → p y = false →
      (xs ++ y :: ys).takeWhile p = xs := by
  intro xs
  induction xs with
  | nil =>
    intro y ys _ hy
    simp [List.takeWhile_cons, hy]
  | cons a as ih =>
    intro y ys hall hy
    have ha : p a = true := hall a (by simp)
    simp [List.takeWhile_cons, ha]
    exact ih y ys (fun x hx => hall x (by simp [hx])) hy

/-- Dropping a prefix plus one element. -/
theorem drop_succ_append (xs : List Nat) (y : Nat) (ys : List Nat) :
    (xs ++ y :: ys).drop (xs.length + 1) = ys := by
  have h : xs ++ y :: ys = (xs ++ [y]) ++ ys := by simp
  rw [h]
  have h2 : xs.length + 1 = (xs ++ [y]).length := by simp
  rw [h2, List.drop_left]

/-- C1 (amended): for every input, the plain text and the position map
returned by stripANSIWithMapping have the same length counted in BYTES:
each surviving byte, including each byte of a multi-byte codepoint,
contributes exactly one plain byte and one mapping entry. -/
theorem c1_mapping_length_bytes (s : List Nat) :
    ((stripANSIWithMapping s).1).length = ((stripANSIWithMapping s).2).length :=
  stripGo_lengths s.length s 0

/-- C1 counterexample: on the single 2-byte codepoint U+00E9 (bytes
195 169) the position map has two entries while the plain text is one
codepoint, so the claimed length equality in CODEPOINTS fails. -/
theorem c1_counterexample :
    ((stripANSIWithMapping [195, 169]).2).length = 2 ∧
      utf8Count (stripANSIWithMapping [195, 169]).1 = 1 := by
  constructor
  · decide
  · decide

/-- C2 (amended): after ESC `[`, the scanner consumes the maximal run of
digit/semicolon bytes plus ONE further byte of any class when one is
present (not: through the first byte in the letter class A-Za-z), or to
end of line otherwise; every consumed byte contributes nothing to the
plain text or the position map. -/
theorem c2_csi_consumption :
    (∀ (body : List Nat) (c : Nat) (rest : List Nat) (i : Nat),
      (∀ b ∈ body, isCsiParam b = true) → isCsiParam c = false →
        stripFrom (27 :: 91 :: (body ++ c :: rest)) i = stripFrom rest (i + 3 + body.length)) ∧
    (∀ (body : List Nat) (i : Nat), (∀ b ∈ body, isCsiParam b = true) →
        stripFrom (27 :: 91 :: body) i = ([], [])) := by
  constructor
  · intro body c rest i hall hc
    have hskip : skipCSIStrip (body ++ c :: rest) = body.length + 1 := by
      unfold skipCSIStrip
      rw [takeWhile_middle isCsiParam body c rest hall hc]
      simp
    have hlen : (27 :: 91 :: (body ++ c :: rest)).length = (body ++ c :: rest).length + 1 + 1 := by
      simp
    unfold stripFrom
    rw [hlen, stripGo_csi_step, hskip, drop_succ_append]
    have hfuel : rest.length ≤ (body ++ c :: rest).length + 1 := by simp; omega
    rw [stripGo_congr ((body ++ c :: rest).length + 1) rest (i + 2 + (body.length + 1))
      ((body ++ c :: rest).length + 1) rest.length hfuel hfuel (Nat.le_refl _)]
    have harith : i + 2 + (body.length + 1) = i + 3 + body.length := by omega
    rw [harith]
  · intro body i hall
    have hskip : skipCSIStrip body = body.length := by
      unfold skipCSIStrip
      rw [List.takeWhile_eq_self_iff.mpr (by intro a ha; exact hall a ha)]
      simp
    have hlen : (27 :: 91 :: body).length = body.length + 1 + 1 := by simp
    unfold stripFrom
    rw [hlen, stripGo_csi_step, hskip, List.drop_length, stripGo_nil]

/-- C2 witness: on ESC `[` 3 ! Z the scanner consumes ESC, bracket, the
digit 3 and the single byte ! and leaves Z as plain text at raw offset 4. -/
theorem c2_csi_consumption_witness :
    stripFrom [27, 91, 51, 33, 90] 0 = stripFrom [90] (0 + 3 + [(51 : Nat)].length) ∧
      stripFrom [90] (0 + 3 + [(51 : Nat)].length) = ([90], [4]) := by
  constructor
  · exact c2_csi_consumption.1 [51] 33 [90] 0 (by decide) (by decide)
  · decide

/-- C2 counterexample: on input ESC `[` ! Z the first byte of the
final-letter class is Z, so under the claim the whole input would be one
consumed control sequence and the plain text would be empty; the code
instead consumes only ESC, bracket and the single byte ! and emits Z. -/
theorem c2_counterexample : (stripANSIWithMapping [27, 91, 33, 90]).1 = [90] := by decide

/-- ASCII model of Go `strings.ToLower`, applied byte-wise: upper-case
ASCII letters are lowered, all other bytes (including multi-byte codepoint
bytes) are kept; the non-ASCII case mappings of the Go library are outside
this model and irrelevant to the ordering and state claims proved here. -/
def toLowerB (l : List Nat) : List Nat :=
  l.map (fun b => if 65 ≤ b ∧ b ≤ 90 then b + 32 else b)

/-- Bool prefix test on byte lists. -/
def isPrefixB : List Nat → List Nat → Bool
  | [], _ => true
  | _ :: _, [] => false
  | a :: as, b :: bs => a == b && isPrefixB as bs

/-- Go `strings.Index` on byte lists: the first offset where `needle`
occurs in `hay`, or none. -/
def firstIndexOf (hay needle : List Nat) : Option Nat :=
  if isPrefixB needle hay then some 0
  else
    match hay with
    | [] => none
    | _ :: t => (firstIndexOf t needle).map (· + 1)

/-- Go `SearchMatch`: line number, column in the plain text, column in the
original text, and matched text. -/
structure SearchMatch where
  lineNumber : Nat
  column : Nat
  originalColumn : Nat
  text : List Nat
deriving DecidableEq, Repr

instance : Inhabited SearchMatch := ⟨⟨0, 0, 0, []⟩⟩

/-- Fueled inner loop of Go `findAllMatches`: repeatedly find the next
occurrence of `term` in `searchLine` starting at `index`, record a match,
and resume at the byte right after the end of the found occurrence
(Go: `index = actualPos + len(searchTerm)`). -/
def findInLineGo (searchLine plainLine posMap term : List Nat) (ln : Nat) :
    Nat → Nat → List SearchMatch
  | 0, _ => []
  | f + 1, index =>
    match firstIndexOf (searchLine.drop index) term with
    | none => []
    | some pos =>
      let actualPos := index + pos
      let originalPos := posMap.getD actualPos 0
      let matchText :=
        if actualPos + term.length ≤ plainLine.length then
          (plainLine.drop actualPos).take term.length
        else []
      ⟨ln, actualPos, originalPos, matchText⟩ ::
        findInLineGo searchLine plainLine posMap term ln f (actualPos + term.length)

/-- One line of Go `findAllMatches`: strip the line, lower-case it unless
case-sensitive, and collect all matches of the (already lowered) term. -/
def lineMatchesGo (caseSensitive : Bool) (searchTerm : List Nat) (line : List Nat)
    (ln : Nat) : List SearchMatch :=
  let pm := stripANSIWithMapping line
  let plainLine := pm.1
  let posMap := pm.2
  let searchLine := if caseSensitive then plainLine else toLowerB plainLine
  findInLineGo searchLine plainLine posMap searchTerm ln (searchLine.length + 1) 0

/-- The `for lineNum, line := range lines` loop of Go `findAllMatches`. -/
def linesLoopGo (caseSensitive : Bool) (searchTerm : List Nat) :
    List (List Nat) → Nat → List SearchMatch
  | [], _ => []
  | line :: rest, ln =>
    lineMatchesGo caseSensitive searchTerm line ln ++
      linesLoopGo caseSensitive searchTerm rest (ln + 1)

/-- Go `findAllMatches`: empty term yields no matches; otherwise the content
is split on newlines and each line searched in order. -/
def findAllMatches (term content : List Nat) (caseSensitive : Bool) : List SearchMatch :=
  if term = [] then []
  else
    let searchTerm := if caseSensitive then term else toLowerB term
    linesLoopGo caseSensitive searchTerm (content.splitOn 10) 0

/-- Go `SearchState` (the `config` field only affects highlight styling and
is not part of the searched state; the Go field called matches is named
`matchList` here because that word is reserved in Lean). -/
structure SearchState where
  active : Bool
  term : List Nat
  matchList : List SearchMatch
  currentIndex : Int
  caseSensitive : Bool
deriving DecidableEq, Repr

/-- Go `NewSearchState`. -/
def NewSearchState : SearchState :=
  ⟨false, [], [], -1, false⟩

/-- Go `(*SearchState).Clear`. -/
def SearchState.Clear (s : SearchState) : SearchState :=
  { s with active := false, term := [], matchList := [], currentIndex := -1 }

/-- Go `(*SearchState).SetTerm`: stores the term, recomputes the matches,
and resets the cursor to 0 only when at least one match was found. -/
def SearchState.SetTerm (s : SearchState) (term content : List Nat) : SearchState :=
  let m := findAllMatches term content s.caseSensitive
  { s with term := term, matchList := m,
           currentIndex := if 0 < m.length then 0 else s.currentIndex }

/-- Go `(*SearchState).NextMatch`: returns the zero match and false on an
empty list, else advances the cursor cyclically (Go `%` is truncated
division remainder, `Int.tmod`). -/
def SearchState.NextMatch (s : SearchState) : SearchMatch × Bool × SearchState :=
  if s.matchList.length = 0 then (default, false, s)
  else
    let idx : Int := (s.currentIndex + 1).tmod (s.matchList.length : Int)
    (s.matchList.getD idx.toNat default, true, { s with currentIndex := idx })

/-- Go `(*SearchState).PrevMatch`. -/
def SearchState.PrevMatch (s : SearchState) : SearchMatch × Bool × SearchState :=
  if s.matchList.length = 0 then (default, false, s)
  else
    let idx0 := s.currentIndex - 1
    let idx : Int := if idx0 < 0 then (s.matchList.length : Int) - 1 else idx0
    (s.matchList.getD idx.toNat default, true, { s with currentIndex := idx })

/-- Go `(*SearchState).GetCurrentMatch`. -/
def SearchState.GetCurrentMatch (s : SearchState) : SearchMatch × Bool :=
  if s.currentIndex < 0 ∨ (s.matchList.length : Int) ≤ s.currentIndex then (default, false)
  else (s.matchList.getD s.currentIndex.toNat default, true)

/-- Go `(*SearchState).ToggleCaseSensitive`: flips the flag and nothing
else. -/
def SearchState.ToggleCaseSensitive (s : SearchState) : SearchState :=
  { s with caseSensitive := !s.caseSensitive }

/-- Prefix test implies a length bound. -/
theorem isPrefixB_length : ∀ needle hay, isPrefixB needle hay = true → needle.length ≤ hay.length := by
  intro needle
  induction needle with
  | nil => intro hay _; simp
  | cons a as ih =>
    intro hay h
    match hay with
    | [] => simp [isPrefixB] at h
    | b :: bs =>
      simp [isPrefixB] at h
      simpa using ih bs h.2

/-- A found index leaves room for the needle inside the haystack. -/
theorem firstIndexOf_le : ∀ hay needle p, firstIndexOf hay needle = some p →
    p + needle.length ≤ hay.length := by
  intro hay
  induction hay with
  | nil =>
    intro needle p h
    unfold firstIndexOf at h
    by_cases hp : isPrefixB needle [] = true
    · simp [hp] at h
      subst h
      simpa using isPrefixB_length needle [] hp
    · simp [hp] at h
  | cons b bs ih =>
    intro needle p h
    unfold firstIndexOf at h
    by_cases hp : isPrefixB needle (b :: bs) = true
    · simp [hp] at h
      subst h
      simpa using isPrefixB_length needle (b :: bs) hp
    · simp [hp] at h
      obtain ⟨q, hq, rfl⟩ := h
      have := ih needle q hq
      simp
      omega

/-- Navigation order between two matches: strictly later line, or same line
with the second match starting at or after the end of the first. -/
def matchOrder (tlen : Nat) (a b : SearchMatch) : Prop :=
  a.lineNumber < b.lineNumber ∨ (a.lineNumber = b.lineNumber ∧ a.column + tlen ≤ b.column)

/-- Membership in an optional last element. -/
theorem mem_of_getLast?M {l : List SearchMatch} {a : SearchMatch}
    (h : l.getLast? = some a) : a ∈ l := by
  obtain ⟨h2, he⟩ := List.mem_getLast?_eq_getLast h
  exact he ▸ List.getLast_mem h2

/-- The inner search loop produces matches of the given line in strictly
increasing, non-overlapping column order, all at or after the start index. -/
theorem findInLineGo_facts : ∀ f (sl pl pm t : List Nat) (ln idx : Nat),
    List.Chain' (matchOrder t.length) (findInLineGo sl pl pm t ln f idx) ∧
    ∀ m ∈ findInLineGo sl pl pm t ln f idx, m.lineNumber = ln ∧ idx ≤ m.column := by
  intro f
  induction f with
  | zero => intro sl pl pm t ln idx; simp [findInLineGo]
  | succ f ih =>
    intro sl pl pm t ln idx
    match h : firstIndexOf (sl.drop idx) t with
    | none => simp [findInLineGo, h]
    | some pos =>
      have hrec := ih sl pl pm t ln (idx + pos + t.length)
      constructor
      · simp only [findInLineGo, h]
        rw [List.chain'_cons']
        constructor
        · intro y hy
          have hmem : y ∈ findInLineGo sl pl pm t ln f (idx + pos + t.length) :=
            List.mem_of_mem_head? hy
          have hf := hrec.2 y hmem
          exact Or.inr ⟨hf.1.symm, by simpa using hf.2⟩
        · exact hrec.1
      · intro m hm
        simp only [findInLineGo, h, List.mem_cons] at hm
        rcases hm with rfl | hm
        · exact ⟨rfl, by simp⟩
        · have hf := hrec.2 m hm
          exact ⟨hf.1, by omega⟩

/-- The per-line loop produces matches in line order: every match of the
suffix starting at line `ln` is at line `ln` or later, and the full list is
chained by `matchOrder`. -/
theorem linesLoopGo_facts : ∀ (lines : List (List Nat)) (cs : Bool) (st : List Nat) (ln : Nat),
    List.Chain' (matchOrder st.length) (linesLoopGo cs st lines ln) ∧
    ∀ m ∈ linesLoopGo cs st lines ln, ln ≤ m.lineNumber := by
  intro lines
  induction lines with
  | nil => intro cs st ln; simp [linesLoopGo]
  | cons line rest ih =>
    intro cs st ln
    have hline := findInLineGo_facts
      ((if cs then (stripANSIWithMapping line).1 else toLowerB (stripANSIWithMapping line).1).length + 1)
      (if cs then (stripANSIWithMapping line).1 else toLowerB (stripANSIWithMapping line).1)
      (stripANSIWithMapping line).1 (stripANSIWithMapping line).2 st ln 0
    have hblock : List.Chain' (matchOrder st.length) (lineMatchesGo cs st line ln) ∧
        ∀ m ∈ lineMatchesGo cs st line ln, m.lineNumber = ln ∧ 0 ≤ m.column := by
      unfold lineMatchesGo
      exact hline
    have hrest := ih cs st (ln + 1)
    constructor
    · simp only [linesLoopGo]
      rw [List.chain'_append]
      refine ⟨hblock.1, hrest.1, ?_⟩
      intro x hx y hy
      have hxm : x ∈ lineMatchesGo cs st line ln := mem_of_getLast?M hx
      have hym : y ∈ linesLoopGo cs st rest (ln + 1) := List.mem_of_mem_head? hy
      have h1 := (hblock.2 x hxm).1
      have h2 := hrest.2 y hym
      exact Or.inl (by omega)
    · intro m hm
      simp only [linesLoopGo, List.mem_append] at hm
      rcases hm with hm | hm
      · exact (hblock.2 m hm).1 ▸ Nat.le_refl ln
      · have := hrest.2 m hm
        omega

/-- Byte-wise ASCII lowering preserves length. -/
theorem toLowerB_length (l : List Nat) : (toLowerB l).length = l.length := by
  simp [toLowerB]

/-- C4: for every search term, content and case flag, `findAllMatches`
produces its matches in line-ascending then column-ascending order, and
consecutive matches on the same line never overlap: each later match starts
at or after the byte just past the previous match's end (the loop resumes
at `actualPos + len(searchTerm)`). -/
theorem c4_match_ordering (term content : List Nat) (cs : Bool) :
    List.Chain' (matchOrder term.length) (findAllMatches term content cs) := by
  unfold findAllMatches
  by_cases h : term = []
  · simp [h]
  · simp only [h, if_false]
    have hlen : (if cs then term else toLowerB term).length = term.length := by
      by_cases hcs : cs <;> simp [hcs, toLowerB_length]
    rw [← hlen]
    exact (linesLoopGo_facts (content.splitOn 10) cs (if cs then term else toLowerB term) 0).1

/-- C5: NextMatch and PrevMatch advance the cursor cyclically (NextMatch
wraps from the last index to 0, PrevMatch from 0 to the last index); on an
empty match list both return the zero match with a false flag and leave the
state, in particular the cursor, unchanged; GetCurrentMatch returns the
match at the cursor, or the zero match with a false flag when the cursor is
out of range. -/
theorem c5_cursor_navigation :
    (∀ s : SearchState, s.matchList = [] →
        s.NextMatch = (default, false, s) ∧ s.PrevMatch = (default, false, s)) ∧
    (∀ s : SearchState, s.matchList ≠ [] →
        s.currentIndex = (s.matchList.length : Int) - 1 →
        (s.NextMatch.2.2).currentIndex = 0 ∧ s.NextMatch.2.1 = true) ∧
    (∀ s : SearchState, s.matchList ≠ [] → s.currentIndex = 0 →
        (s.PrevMatch.2.2).currentIndex = (s.matchList.length : Int) - 1 ∧
          s.PrevMatch.2.1 = true) ∧
    (∀ s : SearchState, s.currentIndex < 0 ∨ (s.matchList.length : Int) ≤ s.currentIndex →
        s.GetCurrentMatch = (default, false)) ∧
    (∀ s : SearchState, 0 ≤ s.currentIndex → s.currentIndex < (s.matchList.length : Int) →
        s.GetCurrentMatch = (s.matchList.getD s.currentIndex.toNat default, true)) := by
  refine ⟨?_, ?_, ?_, ?_, ?_⟩
  · intro s h
    constructor
    · simp [SearchState.NextMatch, h]
    · simp [SearchState.PrevMatch, h]
  · intro s h hidx
    have hlen : s.matchList.length ≠ 0 := by simpa using h
    constructor
    · simp only [SearchState.NextMatch, if_neg hlen]
      rw [hidx]
      have : (s.matchList.length : Int) - 1 + 1 = (s.matchList.length : Int) := by ring
      rw [this, Int.tmod_self]
    · simp [SearchState.NextMatch, hlen]
  · intro s h hidx
    have hlen : s.matchList.length ≠ 0 := by simpa using h
    constructor
    · simp only [SearchState.PrevMatch, if_neg hlen]
      rw [hidx]
      norm_num
    · simp [SearchState.PrevMatch, hlen]
  · intro s h
    simp [SearchState.GetCurrentMatch, h]
  · intro s h1 h2
    have : ¬ (s.currentIndex < 0 ∨ (s.matchList.length : Int) ≤ s.currentIndex) := by omega
    simp [SearchState.GetCurrentMatch, this]

/-- C5 witness: concrete empty-list and wrap-around cases. -/
theorem c5_cursor_navigation_witness :
    (⟨false, [], [], -1, false⟩ : SearchState).NextMatch =
      (default, false, (⟨false, [], [], -1, false⟩ : SearchState)) ∧
    ((⟨false, [97], [⟨0, 0, 0, [97]⟩, ⟨0, 2, 2, [97]⟩], 1, false⟩ :
        SearchState).NextMatch.2.2).currentIndex = 0 ∧
    ((⟨false, [97], [⟨0, 0, 0, [97]⟩, ⟨0, 2, 2, [97]⟩], 0, false⟩ :
        SearchState).PrevMatch.2.2).currentIndex = 1 := by
  refine ⟨(c5_cursor_navigation.1 _ rfl).1, ?_, ?_⟩
  · exact (c5_cursor_navigation.2.1 _ (by decide) (by decide)).1
  · have := (c5_cursor_navigation.2.2.1
      (⟨false, [97], [⟨0, 0, 0, [97]⟩, ⟨0, 2, 2, [97]⟩], 0, false⟩ : SearchState)
      (by decide) (by decide)).1
    simpa using this

/-- C8 (amended): NewSearchState and Clear leave the cursor at -1, but
SetTerm with a term that yields no matches leaves the cursor UNCHANGED
rather than resetting it to -1, so the claimed invariant (cursor is -1
whenever the match list is empty) can be violated after a failed search
that follows a successful one. -/
theorem c8_cursor_invariant :
    NewSearchState.currentIndex = -1 ∧
    (∀ s : SearchState, s.Clear.currentIndex = -1) ∧
    (∀ (s : SearchState) (term content : List Nat),
        (s.SetTerm term content).matchList = [] →
        (s.SetTerm term content).currentIndex = s.currentIndex) := by
  refine ⟨rfl, fun s => rfl, ?_⟩
  intro s term content h
  simp only [SearchState.SetTerm] at h ⊢
  simp [h]

/-- C8 witness: a failed search after a successful one keeps the old
cursor. -/
theorem c8_cursor_invariant_witness :
    ((NewSearchState.SetTerm [97] [97]).SetTerm [113] [97]).currentIndex =
      (NewSearchState.SetTerm [97] [97]).currentIndex :=
  c8_cursor_invariant.2.2 (NewSearchState.SetTerm [97] [97]) [113] [97] (by decide)

/-- C8 counterexample: searching for `a` in content `a` (one match, cursor
0) and then for `q` (no matches) leaves an empty match list with cursor 0,
not -1, refuting the claimed invariant for SetTerm. -/
theorem c8_counterexample :
    ((NewSearchState.SetTerm [97] [97]).SetTerm [113] [97]).matchList = [] ∧
      ((NewSearchState.SetTerm [97] [97]).SetTerm [113] [97]).currentIndex = 0 := by
  constructor
  · decide
  · decide

/-- C9 (amended): ToggleCaseSensitive only flips the case-sensitivity flag;
it does not recompute the match list (and no recompute happens until the
next SetTerm), so the stored matches are left exactly as they were. -/
theorem c9_toggle_no_recompute (s : SearchState) :
    (s.ToggleCaseSensitive).matchList = s.matchList ∧
    (s.ToggleCaseSensitive).term = s.term ∧
    (s.ToggleCaseSensitive).caseSensitive = !s.caseSensitive :=
  ⟨rfl, rfl, rfl⟩

/-- C9 counterexample: after searching `foo` in content `FOO`
case-insensitively (one stored match) and toggling case sensitivity, the
stored match list differs from what a fresh search with the same term and
content under the new flag would produce (which is no matches). -/
theorem c9_counterexample :
    ¬ ((SearchState.ToggleCaseSensitive
          (NewSearchState.SetTerm [102, 111, 111] [70, 79, 79])).matchList =
        findAllMatches
          (SearchState.ToggleCaseSensitive
            (NewSearchState.SetTerm [102, 111, 111] [70, 79, 79])).term
          [70, 79, 79]
          (SearchState.ToggleCaseSensitive
            (NewSearchState.SetTerm [102, 111, 111] [70, 79, 79])).caseSensitive) := by
  decide

/-- One regex match of the Go pattern for the two-character sequence `](`
followed by a parenthesized group: position of `]`, end of the whole match,
and the byte range of the captured group. -/
structure CloseOcc where
  closePos : Nat
  endPos : Nat
  urlStart : Nat
  urlEnd : Nat
deriving DecidableEq, Repr

/-- Try the Go regex pattern (literal `](`, then one or more non-`)` bytes,
then `)`) at byte position `p` of `s`.  The starred group is greedy but can
never contain `)`, so the match is deterministic: the group runs to the
first following `)`. -/
def matchCloseAt (s : List Nat) (p : Nat) : Option CloseOcc :=
  match s.drop p with
  | 93 :: 40 :: r =>
    let run := r.takeWhile (fun b => b ≠ 41)
    match r.drop run.length with
    | 41 :: _ =>
      if run.length = 0 then none
      else some ⟨p, p + 3 + run.length, p + 2, p + 2 + run.length⟩
    | _ => none
  | _ => none

/-- Fueled scan for all (leftmost, non-overlapping) matches of the `](...)`
pattern, as Go `FindAllStringSubmatchIndex` produces them. -/
def scanCloseOccs (s : List Nat) : Nat → Nat → List CloseOcc
  | 0, _ => []
  | f + 1, p =>
    if p < s.length then
      match matchCloseAt s p with
      | some o => o :: scanCloseOccs s f o.endPos
      | none => scanCloseOccs s f (p + 1)
    else []

/-- All `](...)` occurrences of a styled text, in ascending position. -/
def closeBracketOccs (s : List Nat) : List CloseOcc :=
  scanCloseOccs s (s.length + 1) 0

/-- The Go backward scan of addHyperlinks, examining positions `p` down to
0: a `[` is accepted unless the immediately preceding byte exists and is
ESC; the check `pos > 0` makes a `[` at position 0 always unescaped. -/
def findOpenBracketGo (s : List Nat) : Nat → Option Nat
  | 0 => if s.getD 0 0 = 91 then some 0 else none
  | p + 1 =>
    if s.getD (p + 1) 0 = 91 then
      if s.getD p 0 = 27 then findOpenBracketGo s p
      else some (p + 1)
    else findOpenBracketGo s p

/-- Backward scan starting just before the `]` at `closePos` (Go:
`for pos := closeBracketPos - 1; pos >= 0; pos--`); no scan happens when
the `]` is the first byte. -/
def findOpenFrom (s : List Nat) (closePos : Nat) : Option Nat :=
  match closePos with
  | 0 => none
  | p + 1 => findOpenBracketGo s p

/-- ASCII white-space bytes trimmed by the model of Go
`strings.TrimSpace`. -/
def isSpaceB (b : Nat) : Bool :=
  b == 32 || b == 9 || b == 10 || b == 11 || b == 12 || b == 13

/-- ASCII model of Go `strings.TrimSpace` (the non-ASCII Unicode space
bytes have no effect on the claims proved here). -/
def trimSpaceB (l : List Nat) : List Nat :=
  ((l.dropWhile isSpaceB).reverse.dropWhile isSpaceB).reverse

/-- Go: `if idx := strings.Index(url, " "); idx != -1 { url = url[:idx] }`. -/
def cutAtSpace (l : List Nat) : List Nat :=
  match firstIndexOf l [32] with
  | some i => l.take i
  | none => l

/-- Bool infix test, Go `strings.Contains`. -/
def containsSub (l sub : List Nat) : Bool :=
  (firstIndexOf l sub).isSome

/-- The URL shape check of addHyperlinks: Go accepts when the recovered
value contains `://` or starts with `mailto:`. -/
def urlShapeOK (u : List Nat) : Bool :=
  containsSub u [58, 47, 47] || isPrefixB [109, 97, 105, 108, 116, 111, 58] u

/-- The URL recovered from a `](...)` occurrence: the parenthesized bytes,
stripped of control sequences, trimmed, and truncated at the first space. -/
def recoverURL (s : List Nat) (o : CloseOcc) : List Nat :=
  cutAtSpace (trimSpaceB (stripANSI ((s.take o.urlEnd).drop o.urlStart)))

/-- Model of the Config underline colors used by addHyperlinks: each field
is the already-resolved 256-color code of hexToANSI; none models a nil
config, an empty color string, or a hexToANSI failure, which all take the
default-underline branch in Go. -/
structure HConfig where
  hyperlinkUnderline : Option Nat
  hyperlinkHoveredUnderline : Option Nat
deriving DecidableEq, Repr

/-- The underline-color selection of addHyperlinks: hovered color when the
URL is hovered and a hovered color is configured, else the normal color
when configured, else none. -/
def pickUnderline (cfg : HConfig) (hovered : Bool) : Option Nat :=
  if hovered then
    match cfg.hyperlinkHoveredUnderline with
    | some c => some c
    | none => cfg.hyperlinkUnderline
  else cfg.hyperlinkUnderline

/-- ASCII decimal digits of a number, for the `%d` in the Go format
string. -/
def natDigits (n : Nat) : List Nat :=
  (Nat.toDigits 10 n).map Char.toNat

/-- The replacement text addHyperlinks builds for an accepted link:
either `ESC[58;5;<code>m ESC[4m OSC8(url) text OSC8-close ESC[59m ESC[24m`
when an underline color is configured, or the default
`ESC[4m OSC8(url) text OSC8-close ESC[24m`. -/
def hyperlinked (cfg : HConfig) (hoveredURL url text : List Nat) : List Nat :=
  let isHovered := (!hoveredURL.isEmpty) && hoveredURL == url
  let osc := [27, 93, 56, 59, 59] ++ url ++ [27, 92] ++ text ++ [27, 93, 56, 59, 59, 27, 92]
  match pickUnderline cfg isHovered with
  | some code =>
    [27, 91, 53, 56, 59, 53, 59] ++ natDigits code ++ [109] ++
      [27, 91, 52, 109] ++ osc ++ [27, 91, 53, 57, 109] ++ [27, 91, 50, 52, 109]
  | none => [27, 91, 52, 109] ++ osc ++ [27, 91, 50, 52, 109]

/-- A `](...)` occurrence together with its matching opening bracket, as
stored in the Go validMatches slice. -/
structure ValidMatch where
  matchStart : Nat
  matchEnd : Nat
  textStart : Nat
  textEnd : Nat
  urlStart : Nat
  urlEnd : Nat
deriving DecidableEq, Repr

/-- The validMatches loop of addHyperlinks: keep each `](...)` occurrence
whose backward scan finds an unescaped `[`. -/
def validMatchesOf (s : List Nat) : List ValidMatch :=
  (closeBracketOccs s).filterMap fun o =>
    match findOpenFrom s o.closePos with
    | some ob => some ⟨ob, o.endPos, ob + 1, o.closePos, o.urlStart, o.urlEnd⟩
    | none => none

/-- Go slice `r[a:b]` on byte lists. -/
def sliceL (r : List Nat) (a b : Nat) : List Nat :=
  (r.take b).drop a

/-- One iteration of the replacement loop of addHyperlinks: recompute the
text and URL from the current string at the recorded offsets, test the URL
shape, and splice in the hyperlinked replacement on success. -/
def hyperStep (cfg : HConfig) (hov : List Nat) (r : List Nat) (vm : ValidMatch) : List Nat :=
  let textWithANSI := sliceL r vm.textStart vm.textEnd
  let urlPart := sliceL r vm.urlStart vm.urlEnd
  let url := cutAtSpace (trimSpaceB (stripANSI urlPart))
  if urlShapeOK url then
    (r.take vm.matchStart) ++ hyperlinked cfg hov url textWithANSI ++ (r.drop vm.matchEnd)
  else r

/-- Go `addHyperlinks` (the unused originalMarkdown parameter is dropped):
collect the `](...)` occurrences, resolve their opening brackets, and
process the accepted matches in reverse document order. -/
def addHyperlinks (cfg : HConfig) (hov : List Nat) (s : List Nat) : List Nat :=
  (validMatchesOf s).reverse.foldl (hyperStep cfg hov) s

/-- A fold of hyperStep leaves the string unchanged when every step does. -/
theorem foldl_hyperStep_id (cfg : HConfig) (hov s : List Nat) :
    ∀ ms : List ValidMatch, (∀ vm ∈ ms, hyperStep cfg hov s vm = s) →
      ms.foldl (hyperStep cfg hov) s = s := by
  intro ms
  induction ms with
  | nil => intro _; rfl
  | cons vm tl ih =>
    intro h
    have h0 : hyperStep cfg hov s vm = s := h vm (by simp)
    simp only [List.foldl_cons, h0]
    exact ih (fun v hv => h v (by simp [hv]))

/-- A step with a failing URL shape is the identity. -/
theorem hyperStep_of_urlFail (cfg : HConfig) (hov r : List Nat) (vm : ValidMatch)
    (h : urlShapeOK (cutAtSpace (trimSpaceB (stripANSI (sliceL r vm.urlStart vm.urlEnd)))) = false) :
    hyperStep cfg hov r vm = r := by
  simp [hyperStep, h]

/-- C3 (amended): a `](` occurrence is left as literal text, with the whole
text unmodified, when for every occurrence either the backward scan finds no
unescaped `[` ANYWHERE BEFORE it in the entire text (the scan is not
restricted to the occurrence's line and crosses newlines), or the URL
recovered from the parenthesized part (stripped, trimmed, truncated at its
first space) contains no `://` and has no `mailto:` prefix. -/
theorem c3_reject_leaves_text (cfg : HConfig) (hov s : List Nat)
    (h : ∀ o ∈ closeBracketOccs s,
      findOpenFrom s o.closePos = none ∨ urlShapeOK (recoverURL s o) = false) :
    addHyperlinks cfg hov s = s := by
  unfold addHyperlinks
  apply foldl_hyperStep_id
  intro vm hvm
  rw [List.mem_reverse] at hvm
  obtain ⟨o, ho, heq⟩ := (List.mem_filterMap ..).mp hvm
  match hopen : findOpenFrom s o.closePos with
  | none => simp [hopen] at heq
  | some ob =>
    simp only [hopen] at heq
    have hfail : urlShapeOK (recoverURL s o) = false := by
      rcases h o ho with hc | hc
      · rw [hopen] at hc; exact absurd hc (by simp)
      · exact hc
    apply hyperStep_of_urlFail
    have hvmfields : vm.urlStart = o.urlStart ∧ vm.urlEnd = o.urlEnd := by
      cases heq; exact ⟨rfl, rfl⟩
    rw [hvmfields.1, hvmfields.2]
    simpa [recoverURL, sliceL] using hfail

/-- C3 witness: `](x)` (no opening bracket at all) and `[a](b)` (URL shape
check fails) are both left unchanged. -/
theorem c3_reject_leaves_text_witness :
    addHyperlinks ⟨none, none⟩ [] [93, 40, 120, 41] = [93, 40, 120, 41] ∧
      addHyperlinks ⟨none, none⟩ [] [91, 97, 93, 40, 98, 41] = [91, 97, 93, 40, 98, 41] :=
  ⟨c3_reject_leaves_text ⟨none, none⟩ [] [93, 40, 120, 41] (by decide),
   c3_reject_leaves_text ⟨none, none⟩ [] [91, 97, 93, 40, 98, 41] (by decide)⟩

/-- The text `[` LF `x](http://a)`: the only opening bracket is on the line
before the `](` occurrence. -/
def c3ex : List Nat := [91, 10, 120, 93, 40, 104, 116, 116, 112, 58, 47, 47, 97, 41]

/-- C3 counterexample: in `[` LF `x](http://a)` there is no unescaped `[`
on the occurrence's own line (byte 1 is the newline, byte 2 is `x`), yet
the code converts the occurrence to a hyperlink because its backward scan
crosses the newline and finds the `[` of the previous line, so the
occurrence is NOT left as literal text. -/
theorem c3_counterexample :
    closeBracketOccs c3ex = [⟨3, 14, 5, 13⟩] ∧
      c3ex.getD 1 0 = 10 ∧ c3ex.getD 2 0 ≠ 91 ∧
      addHyperlinks ⟨none, none⟩ [] c3ex ≠ c3ex := by
  refine ⟨by decide, by decide, by decide, by decide⟩

/-- C10: in the backward bracket scan a `[` at byte offset 0 is always
treated as unescaped: whenever byte 0 is `[`, the scan never fails, and
when no other `[` occurs in the scanned range it returns offset 0; a link
whose opening bracket is the very first byte is accepted and converted
(third conjunct: the concrete conversion of `[a](http://x)`). -/
theorem c10_bracket_at_zero :
    (∀ (s : List Nat) (p : Nat), s.getD 0 0 = 91 →
        (findOpenBracketGo s p).isSome = true) ∧
    (∀ (s : List Nat) (p : Nat), s.getD 0 0 = 91 →
        (∀ q, 1 ≤ q → q ≤ p → s.getD q 0 ≠ 91) → findOpenBracketGo s p = some 0) ∧
    addHyperlinks ⟨none, none⟩ [] [91, 97, 93, 40, 104, 116, 116, 112, 58, 47, 47, 120, 41] =
      [27, 91, 52, 109] ++ [27, 93, 56, 59, 59] ++ [104, 116, 116, 112, 58, 47, 47, 120] ++
        [27, 92] ++ [97] ++ [27, 93, 56, 59, 59, 27, 92] ++ [27, 91, 50, 52, 109] := by
  refine ⟨?_, ?_, by decide⟩
  · intro s p h
    induction p with
    | zero =>
      unfold findOpenBracketGo
      rw [if_pos h]
      rfl
    | succ p ih =>
      unfold findOpenBracketGo
      by_cases h1 : s.getD (p + 1) 0 = 91
      · rw [if_pos h1]
        by_cases h2 : s.getD p 0 = 27
        · rw [if_pos h2]; exact ih
        · rw [if_neg h2]; rfl
      · rw [if_neg h1]; exact ih
  · intro s p h hq
    induction p with
    | zero =>
      unfold findOpenBracketGo
      rw [if_pos h]
    | succ p ih =>
      have h1 : s.getD (p + 1) 0 ≠ 91 := hq (p + 1) (by omega) (by omega)
      unfold findOpenBracketGo
      rw [if_neg h1]
      exact ih (fun q hq1 hq2 => hq q hq1 (by omega))

/-- C10 witness: in `[a` the scan starting at position 1 accepts the
bracket at offset 0. -/
theorem c10_bracket_at_zero_witness : findOpenBracketGo [91, 97] 1 = some 0 :=
  c10_bracket_at_zero.2.1 [91, 97] 1 (by decide) (by decide)

/-- The split performed by the ANSI branch of `truncateVisibleChars` after
ESC `[`: consume every byte up to the first ASCII letter, then that letter
if present; returns (consumed bytes, rest). -/
def csiSplitVis (t : List Nat) : List Nat × List Nat :=
  let body := t.takeWhile (fun b => !isAsciiLetter b)
  match t.dropWhile (fun b => !isAsciiLetter b) with
  | c :: r => (body ++ [c], r)
  | [] => (body, [])

/-- The split performed by the OSC branch of `truncateVisibleChars` after
ESC `]`: consume until the two-byte terminator ESC `\` inclusive; the Go
loop condition `i < len(bytes)-1` stops one byte short of the end when no
terminator occurs, leaving that byte unconsumed.  Also returns whether the
terminator was found. -/
def oscSplitVis : List Nat → List Nat × List Nat × Bool
  | [] => ([], [], false)
  | [a] => ([], [a], false)
  | a :: b :: t =>
    if a = 27 ∧ b = 92 then ([27, 92], t, true)
    else
      let p := oscSplitVis (b :: t)
      (a :: p.1, p.2.1, p.2.2)

/-- Fueled worker for Go `truncateVisibleChars`: while bytes remain and
fewer than `n` visible characters have been written, copy escape sequences
verbatim (without counting them) and decode/re-encode visible codepoints
(counting one per codepoint; invalid UTF-8 is re-encoded as the 3-byte
replacement codepoint and skips 3 input bytes, as the Go helper
`decodeRuneInBytes` returns `len(string(r))` for the rune it decoded). -/
def truncGo (n : Nat) : Nat → List Nat → Nat → List Nat
  | 0, _, _ => []
  | f + 1, l, vc =>
    if vc < n then
      match l with
      | [] => []
      | b :: t =>
        if b = 27 then
          match t with
          | [] => [27]
          | c :: t2 =>
            if c = 91 then
              let p := csiSplitVis t2
              27 :: 91 :: (p.1 ++ truncGo n f p.2 vc)
            else if c = 93 then
              let p := oscSplitVis t2
              27 :: 93 :: (p.1 ++ truncGo n f p.2.1 vc)
            else
              27 :: truncGo n f (c :: t2) vc
        else
          match utf8Split (b :: t) with
          | some (seq, r) => seq ++ truncGo n f r (vc + 1)
          | none => 239 :: 191 :: 189 :: truncGo n f ((b :: t).drop 3) (vc + 1)
    else []

/-- Go `truncateVisibleChars`: the prefix of `s` holding its first `n`
visible characters. -/
def truncateVisibleChars (s : List Nat) (n : Nat) : List Nat :=
  truncGo n s.length s 0

/-- Fueled scanner wellformedness for the `truncateVisibleChars` scan: the
input is empty or decomposes into CSI sequences, OSC sequences terminated
by ESC `\`, stray ESC bytes, and valid UTF-8 codepoints. -/
def goodGo : Nat → List Nat → Bool
  | 0, l => l.isEmpty
  | f + 1, l =>
    match l with
    | [] => true
    | b :: t =>
      if b = 27 then
        match t with
        | [] => true
        | c :: t2 =>
          if c = 91 then goodGo f (csiSplitVis t2).2
          else if c = 93 then
            let p := oscSplitVis t2
            p.2.2 && goodGo f p.2.1
          else goodGo f (c :: t2)
      else
        match utf8Split (b :: t) with
        | some (_, r) => goodGo f r
        | none => false

/-- Wellformedness of a whole line for the truncation scan. -/
def goodScan (s : List Nat) : Bool := goodGo s.length s

/-- Fueled visible-character counter of the `truncateVisibleChars` scan:
escape sequences and stray ESC bytes count zero, every decoded codepoint
(valid or replaced) counts one. -/
def visGo : Nat → List Nat → Nat
  | 0, _ => 0
  | f + 1, l =>
    match l with
    | [] => 0
    | b :: t =>
      if b = 27 then
        match t with
        | [] => 0
        | c :: t2 =>
          if c = 91 then visGo f (csiSplitVis t2).2
          else if c = 93 then visGo f (oscSplitVis t2).2.1
          else visGo f (c :: t2)
      else
        match utf8Split (b :: t) with
        | some (_, r) => 1 + visGo f r
        | none => 1 + visGo f ((b :: t).drop 3)

/-- Total visible-character count of a line under the truncation scan. -/
def visCount (s : List Nat) : Nat := visGo s.length s

/-- The two parts of the CSI split rebuild the input. -/
theorem csiSplitVis_append (t : List Nat) :
    (csiSplitVis t).1 ++ (csiSplitVis t).2 = t := by
  unfold csiSplitVis
  match h : t.dropWhile (fun b => !isAsciiLetter b) with
  | [] =>
    simp only [h, List.append_nil]
    have := List.takeWhile_append_dropWhile (p := fun b => !isAsciiLetter b) (l := t)
    rw [h, List.append_nil] at this
    exact this
  | c :: r =>
    simp only [h]
    have := List.takeWhile_append_dropWhile (p := fun b => !isAsciiLetter b) (l := t)
    rw [h] at this
    simpa using this

/-- The two parts of the OSC split rebuild the input. -/
theorem oscSplitVis_append : ∀ t : List Nat,
    (oscSplitVis t).1 ++ (oscSplitVis t).2.1 = t := by
  intro t
  induction t with
  | nil => simp [oscSplitVis]
  | cons a t ih =>
    match t with
    | [] => simp [oscSplitVis]
    | b :: t2 =>
      by_cases h : a = 27 ∧ b = 92
      · obtain ⟨rfl, rfl⟩ := h
        simp [oscSplitVis]
      · simp only [oscSplitVis, if_neg h, List.cons_append, List.cons.injEq, true_and]
        exact ih

/-- A successful UTF-8 split rebuilds the input, is nonempty, and strictly
shrinks the rest. -/
theorem utf8Split_parts (l seq r : List Nat) (h : utf8Split l = some (seq, r)) :
    seq ++ r = l ∧ 0 < seq.length ∧ r.length < l.length := by
  unfold utf8Split at h
  by_cases hk : utf8SeqLen l = 0
  · simp [hk] at h
  · simp only [hk, if_neg, if_false] at h
    have hne : l ≠ [] := by
      intro he
      subst he
      exact hk rfl
    have hlen : 0 < l.length := List.length_pos.mpr hne
    rw [Option.some_inj, Prod.mk.injEq] at h
    obtain ⟨h1, h2⟩ := h
    subst h1
    subst h2
    refine ⟨List.take_append_drop _ _, ?_, ?_⟩
    · rw [List.length_take]
      omega
    · rw [List.length_drop]
      omega

/-- Unfolding lemmas for the three truncation scans. -/
theorem goodGo_csi (f : Nat) (t2 : List Nat) :
    goodGo (f + 1) (27 :: 91 :: t2) = goodGo f (csiSplitVis t2).2 := by
  simp [goodGo]

theorem goodGo_osc (f : Nat) (t2 : List Nat) :
    goodGo (f + 1) (27 :: 93 :: t2) =
      ((oscSplitVis t2).2.2 && goodGo f (oscSplitVis t2).2.1) := by
  simp [goodGo]

theorem goodGo_esc_other (f c : Nat) (t2 : List Nat) (hc : c ≠ 91) (hc2 : c ≠ 93) :
    goodGo (f + 1) (27 :: c :: t2) = goodGo f (c :: t2) := by
  simp [goodGo, hc, hc2]

theorem goodGo_vis (f b : Nat) (t : List Nat) (hb : b ≠ 27) :
    goodGo (f + 1) (b :: t) =
      (match utf8Split (b :: t) with
       | some (_, r) => goodGo f r
       | none => false) := by
  simp [goodGo, hb]

theorem visGo_csi (f : Nat) (t2 : List Nat) :
    visGo (f + 1) (27 :: 91 :: t2) = visGo f (csiSplitVis t2).2 := by
  simp [visGo]

theorem visGo_osc (f : Nat) (t2 : List Nat) :
    visGo (f + 1) (27 :: 93 :: t2) = visGo f (oscSplitVis t2).2.1 := by
  simp [visGo]

theorem visGo_esc_other (f c : Nat) (t2 : List Nat) (hc : c ≠ 91) (hc2 : c ≠ 93) :
    visGo (f + 1) (27 :: c :: t2) = visGo f (c :: t2) := by
  simp [visGo, hc, hc2]

theorem visGo_vis (f b : Nat) (t : List Nat) (hb : b ≠ 27) :
    visGo (f + 1) (b :: t) =
      (match utf8Split (b :: t) with
       | some (_, r) => 1 + visGo f r
       | none => 1 + visGo f ((b :: t).drop 3)) := by
  simp [visGo, hb]

theorem truncGo_csi (n f : Nat) (t2 : List Nat) (vc : Nat) (h : vc < n) :
    truncGo n (f + 1) (27 :: 91 :: t2) vc =
      27 :: 91 :: ((csiSplitVis t2).1 ++ truncGo n f (csiSplitVis t2).2 vc) := by
  simp [truncGo, h]

theorem truncGo_osc (n f : Nat) (t2 : List Nat) (vc : Nat) (h : vc < n) :
    truncGo n (f + 1) (27 :: 93 :: t2) vc =
      27 :: 93 :: ((oscSplitVis t2).1 ++ truncGo n f (oscSplitVis t2).2.1 vc) := by
  simp [truncGo, h]

theorem truncGo_esc_other (n f c : Nat) (t2 : List Nat) (vc : Nat) (h : vc < n)
    (hc : c ≠ 91) (hc2 : c ≠ 93) :
    truncGo n (f + 1) (27 :: c :: t2) vc = 27 :: truncGo n f (c :: t2) vc := by
  simp [truncGo, h, hc, hc2]

theorem truncGo_vis (n f b : Nat) (t : List Nat) (vc : Nat) (h : vc < n) (hb : b ≠ 27) :
    truncGo n (f + 1) (b :: t) vc =
      (match utf8Split (b :: t) with
       | some (seq, r) => seq ++ truncGo n f r (vc + 1)
       | none => 239 :: 191 :: 189 :: truncGo n f ((b :: t).drop 3) (vc + 1)) := by
  simp [truncGo, h, hb]

/-- Core of C6: when the input is scanner-wellformed and strictly fewer
visible characters than the budget remain available, the truncation loop
reproduces the input byte for byte.  All three scans are driven with the
same fuel, which the length bound keeps sufficient. -/
theorem truncGo_full : ∀ f l vc n, l.length ≤ f → goodGo f l = true →
    vc + visGo f l < n → truncGo n f l vc = l := by
  intro f
  induction f with
  | zero =>
    intro l vc n hf _ _
    have hl : l = [] := List.eq_nil_of_length_eq_zero (Nat.le_zero.mp hf)
    subst hl
    simp [truncGo]
  | succ f ih =>
    intro l vc n hf hg hv
    have hvc : vc < n := by omega
    match l with
    | [] => simp [truncGo, hvc]
    | b :: t =>
      by_cases hb : b = 27
      · subst hb
        match t with
        | [] => simp [truncGo, hvc]
        | c :: t2 =>
          by_cases hc : c = 91
          · subst hc
            rw [goodGo_csi] at hg
            rw [visGo_csi] at hv
            rw [truncGo_csi _ _ _ _ hvc]
            have happ := csiSplitVis_append t2
            have hlen : (csiSplitVis t2).2.length ≤ t2.length := by
              have := congrArg List.length happ
              simp at this
              omega
            have hrec := ih (csiSplitVis t2).2 vc n (by simp at hf; omega) hg hv
            rw [hrec, happ]
          · by_cases hc2 : c = 93
            · subst hc2
              rw [goodGo_osc, Bool.and_eq_true] at hg
              rw [visGo_osc] at hv
              rw [truncGo_osc _ _ _ _ hvc]
              have happ := oscSplitVis_append t2
              have hlen : (oscSplitVis t2).2.1.length ≤ t2.length := by
                have := congrArg List.length happ
                simp at this
                omega
              have hrec := ih (oscSplitVis t2).2.1 vc n (by simp at hf; omega) hg.2 hv
              rw [hrec, happ]
            · rw [goodGo_esc_other _ _ _ hc hc2] at hg
              rw [visGo_esc_other _ _ _ hc hc2] at hv
              rw [truncGo_esc_other _ _ _ _ _ hvc hc hc2]
              have hrec := ih (c :: t2) vc n (by simp at hf ⊢; omega) hg hv
              rw [hrec]
      · rw [goodGo_vis _ _ _ hb] at hg
        rw [visGo_vis _ _ _ hb] at hv
        rw [truncGo_vis _ _ _ _ _ hvc hb]
        match hs : utf8Split (b :: t) with
        | none => rw [hs] at hg; exact absurd hg (by simp)
        | some (seq, r) =>
          obtain ⟨happ, hpos, hlt⟩ := utf8Split_parts (b :: t) seq r hs
          rw [hs] at hg hv
          have hg2 : goodGo f r = true := hg
          have hv2 : vc + (1 + visGo f r) < n := hv
          show seq ++ truncGo n f r (vc + 1) = b :: t
          have hrec := ih r (vc + 1) n
            (by simp only [List.length_cons] at hf hlt; omega) hg2 (by omega)
          rw [hrec, happ]

/-- C6 (amended): `truncateVisibleChars(s, n)` returns `s` unchanged,
byte for byte, for every scanner-wellformed `s` (valid UTF-8 at visible
positions, every ESC-`]` sequence terminated by ESC-backslash) whose
visible-character count is STRICTLY LESS than `n`; when the count equals
`n` exactly, trailing control sequences after the n-th visible character
are dropped, so the claim as stated does not hold. -/
theorem c6_truncate_identity (s : List Nat) (n : Nat)
    (hg : goodScan s = true) (hv : visCount s < n) :
    truncateVisibleChars s n = s :=
  truncGo_full s.length s 0 n (Nat.le_refl _) hg (by simpa [visCount] using hv)

/-- C6 witness: the line `a ESC[0m` has one visible character; with n = 2
it is returned unchanged including its trailing control sequence. -/
theorem c6_truncate_identity_witness :
    truncateVisibleChars [97, 27, 91, 48, 109] 2 = [97, 27, 91, 48, 109] :=
  c6_truncate_identity [97, 27, 91, 48, 109] 2 (by decide) (by decide)

/-- C6 counterexample: the line `ab ESC[0m` has exactly 2 visible
characters, so under the claim truncateVisibleChars with n = 2 would
return the full line including the trailing control sequence; the code
stops as soon as 2 visible characters are written and drops the trailing
`ESC[0m`. -/
theorem c6_counterexample :
    visCount [97, 98, 27, 91, 48, 109] = 2 ∧
      truncateVisibleChars [97, 98, 27, 91, 48, 109] 2 = [97, 98] := by
  constructor
  · decide
  · decide

/-- One OSC 8 hyperlink span found by the extraction regex: the URL group,
the wrapped-text group, the byte offset where the text group begins in the
line, and the offset just past the whole match. -/
structure RawLink where
  url : List Nat
  rawText : List Nat
  textStart : Nat
  endPos : Nat
deriving DecidableEq, Repr

/-- Fueled scan of the second regex group of the hyperlink pattern: one or
more units, each either a non-ESC byte or a full `ESC [ digits/semis m`
style sequence; stops at any other ESC use.  The group is greedy, and since
no unit can start with `ESC ]`, greedy matching without backtracking is
exact for this pattern. -/
def g2Units : Nat → List Nat → List Nat × List Nat
  | 0, l => ([], l)
  | f + 1, l =>
    match l with
    | [] => ([], [])
    | b :: t =>
      if b = 27 then
        match t with
        | c :: t2 =>
          if c = 91 then
            let ds := t2.takeWhile isCsiParam
            match t2.drop ds.length with
            | m :: r =>
              if m = 109 then
                let p := g2Units f r
                (27 :: 91 :: (ds ++ 109 :: p.1), p.2)
              else ([], l)
            | [] => ([], l)
          else ([], l)
        | [] => ([], l)
      else
        let p := g2Units f t
        (b :: p.1, p.2)

/-- Try the Go hyperlink-extraction regex at byte position `p` of `line`:
`ESC ] 8 ; ;` URL (one or more non-ESC bytes), `ESC \`, wrapped text (one
or more group-2 units), `ESC ] 8 ; ; ESC \`. -/
def matchLinkAt (line : List Nat) (p : Nat) : Option RawLink :=
  match line.drop p with
  | 27 :: 93 :: 56 :: 59 :: 59 :: r =>
    let url := r.takeWhile (fun b => b ≠ 27)
    if url.length = 0 then none
    else
      match r.drop url.length with
      | 27 :: 92 :: r2 =>
        let pr := g2Units (r2.length + 1) r2
        if pr.1.length = 0 then none
        else
          match pr.2 with
          | 27 :: 93 :: 56 :: 59 :: 59 :: 27 :: 92 :: _ =>
            some ⟨url, pr.1, p + 5 + url.length + 2,
              p + 5 + url.length + 2 + pr.1.length + 7⟩
          | _ => none
      | _ => none
  | _ => none

/-- Fueled scan for all (leftmost, non-overlapping) hyperlink matches of a
line, as Go `FindAllStringSubmatchIndex` produces them. -/
def scanLinks (line : List Nat) : Nat → Nat → List RawLink
  | 0, _ => []
  | f + 1, p =>
    if p < line.length then
      match matchLinkAt line p with
      | some rl => rl :: scanLinks line f rl.endPos
      | none => scanLinks line f (p + 1)
    else []

/-- All hyperlink spans of one line. -/
def rawLinksOfLine (line : List Nat) : List RawLink :=
  scanLinks line (line.length + 1) 0

/-- Fueled model of the first regex replacement of Go
`stripAllEscapeSequences`: remove every `ESC ] 8 ; ;` (non-ESC bytes)
`ESC \` hyperlink marker. -/
def stripOSC8Go : Nat → List Nat → List Nat
  | 0, l => l
  | f + 1, l =>
    match l with
    | [] => []
    | 27 :: 93 :: 56 :: 59 :: 59 :: r =>
      let u := r.takeWhile (fun b => b ≠ 27)
      match r.drop u.length with
      | 27 :: 92 :: r2 => stripOSC8Go f r2
      | _ => 27 :: stripOSC8Go f (93 :: 56 :: 59 :: 59 :: r)
    | b :: t => b :: stripOSC8Go f t

/-- Fueled model of the second regex replacement of Go
`stripAllEscapeSequences`: remove every `ESC [ digits/semis m` style
sequence. -/
def stripCSIGo : Nat → List Nat → List Nat
  | 0, l => l
  | f + 1, l =>
    match l with
    | [] => []
    | 27 :: 91 :: t =>
      let ds := t.takeWhile isCsiParam
      match t.drop ds.length with
      | 109 :: r => stripCSIGo f r
      | _ => 27 :: stripCSIGo f (91 :: t)
    | b :: t => b :: stripCSIGo f t

/-- Go `stripAllEscapeSequences`: OSC 8 markers removed first, then
`ESC[...m` style sequences. -/
def stripAllEscapeSequences (s : List Nat) : List Nat :=
  let t := stripOSC8Go s.length s
  stripCSIGo t.length t

/-- Go `linkPosition`: URL, visible text, screen coordinates and width. -/
structure LinkPos where
  url : List Nat
  text : List Nat
  x : Nat
  y : Nat
  width : Nat
deriving DecidableEq, Repr

instance : Inhabited LinkPos := ⟨⟨[], [], 0, 0, 0⟩⟩

/-- The linkPosition Go builds for one regex match on line `y`: the text is
the wrapped text stripped of ANSI codes, the width is `len` of that
stripped text, and x is `len` of everything before the text start after
`stripAllEscapeSequences` (both Go `len` calls count bytes). -/
def buildLinkPos (line : List Nat) (y : Nat) (rl : RawLink) : LinkPos :=
  let visibleText := stripANSI rl.rawText
  let beforeLink := line.take rl.textStart
  let visibleBefore := stripAllEscapeSequences beforeLink
  ⟨rl.url, visibleText, visibleBefore.length, y, visibleText.length⟩

/-- The `for y, line := range lines` loop of Go `extractLinkPositions`. -/
def linesLinks : List (List Nat) → Nat → List LinkPos
  | [], _ => []
  | line :: rest, y =>
    (rawLinksOfLine line).map (buildLinkPos line y) ++ linesLinks rest (y + 1)

/-- Go `extractLinkPositions` over the visible content. -/
def extractLinkPositions (content : List Nat) : List LinkPos :=
  linesLinks (content.splitOn 10) 0

/-- True when every byte is ASCII. -/
def allAscii (l : List Nat) : Bool := l.all (fun b => b < 128)

/-- An ASCII byte starts a 1-byte UTF-8 sequence. -/
theorem utf8Split_ascii (b : Nat) (t : List Nat) (hb : b < 128) :
    utf8Split (b :: t) = some ([b], t) := by
  simp [utf8Split, utf8SeqLen, hb]

/-- On ASCII byte lists the Go rune count equals the byte count. -/
theorem utf8Count_ascii : ∀ l : List Nat, allAscii l = true → utf8Count l = l.length := by
  intro l
  induction l with
  | nil => intro _; rfl
  | cons b t ih =>
    intro h
    simp only [allAscii, List.all_cons, Bool.and_eq_true, decide_eq_true_eq] at h
    have ht : allAscii t = true := by
      simp only [allAscii]
      exact h.2
    show utf8CountGo (t.length + 1) (b :: t) = t.length + 1
    simp only [utf8CountGo, utf8Split_ascii b t h.1]
    have := ih ht
    simp only [utf8Count] at this
    omega

/-- C7 (amended): for every link span recorded by extractLinkPositions, the
recorded width equals the BYTE length (Go `len`) of the stripped wrapped
text and the recorded x equals the BYTE length of the stripped text before
the link; these equal the codepoint counts only when the stripped texts are
ASCII, so for lines containing multi-byte codepoints the recorded values
are byte counts, not codepoint counts. -/
theorem c7_link_span_byte_counts (line : List Nat) (y : Nat) (rl : RawLink)
    (hmem : rl ∈ rawLinksOfLine line) :
    (buildLinkPos line y rl).width = (stripANSI rl.rawText).length ∧
    (buildLinkPos line y rl).x =
      (stripAllEscapeSequences (line.take rl.textStart)).length ∧
    (allAscii (stripANSI rl.rawText) = true →
      (buildLinkPos line y rl).width = utf8Count (stripANSI rl.rawText)) ∧
    (allAscii (stripAllEscapeSequences (line.take rl.textStart)) = true →
      (buildLinkPos line y rl).x =
        utf8Count (stripAllEscapeSequences (line.take rl.textStart))) := by
  refine ⟨rfl, rfl, ?_, ?_⟩
  · intro h
    show (stripANSI rl.rawText).length = utf8Count (stripANSI rl.rawText)
    exact (utf8Count_ascii _ h).symm
  · intro h
    show (stripAllEscapeSequences (line.take rl.textStart)).length =
      utf8Count (stripAllEscapeSequences (line.take rl.textStart))
    exact (utf8Count_ascii _ h).symm

/-- C7 witness: the ASCII link line OSC8(u) `ab` OSC8-close, whose only
recorded span has width 2 equal to the codepoint count of `ab`. -/
theorem c7_link_span_byte_counts_witness :
    (buildLinkPos [27, 93, 56, 59, 59, 117, 27, 92, 97, 98, 27, 93, 56, 59, 59, 27, 92] 0
        ⟨[117], [97, 98], 8, 17⟩).width = utf8Count (stripANSI [97, 98]) :=
  (c7_link_span_byte_counts
      [27, 93, 56, 59, 59, 117, 27, 92, 97, 98, 27, 93, 56, 59, 59, 27, 92] 0
      ⟨[117], [97, 98], 8, 17⟩ (by decide)).2.2.1 (by decide)

/-- The link line OSC8(u) followed by the 2-byte codepoint U+00E9 and the
closing marker. -/
def c7ex : List Nat := [27, 93, 56, 59, 59, 117, 27, 92, 195, 169, 27, 93, 56, 59, 59, 27, 92]

/-- C7 counterexample: on a link whose text is the single 2-byte codepoint
U+00E9, the recorded width is 2 (bytes) while the codepoint count of the
stripped text is 1, so the claimed codepoint counting fails on multi-byte
codepoints. -/
theorem c7_counterexample :
    extractLinkPositions c7ex = [⟨[117], [195, 169], 0, 0, 2⟩] ∧
      utf8Count [195, 169] = 1 := by
  constructor
  · decide
  · decide
